import Mathlib

/-!
Verification of the UTXO coin-selection engine
(`packages/blockchain-wallet-v4/src/coinSelection/index.js`).

The JavaScript source is shallowly embedded: JS numbers that can become
`NaN` are modelled by `JSNum` (a rational or `nan`), thrown exceptions by
`Except String`, JS objects used as ordered string-keyed count maps by
association lists `List (String × ℚ)`, and strings by their character
lists.  Monetary values are integers (`ℤ`), as the spec's data model
requires.  Parts of the repository that are not present under `src/`
(the `Coin` value-object module `coin.js`) and the external random
libraries (`seedrandom`, `fisher-yates`) are modelled from the spec and
are marked `Modelled from the spec:` in their doc comments.
-/

namespace CoinSel

/-- A JavaScript number that is either an exact rational or `NaN`.
Monetary quantities in the engine are integers, so exact rationals are a
faithful carrier for every non-`NaN` value the code manipulates. -/
inductive JSNum where
  | num : ℚ → JSNum
  | nan : JSNum
deriving DecidableEq, Repr

/-- JS addition: `NaN` absorbs. -/
def jadd : JSNum → JSNum → JSNum
  | .num a, .num b => .num (a + b)
  | _, _ => .nan

/-- JS multiplication: `NaN` absorbs (the undefined-lookup case
`undefined * n` also yields `NaN` and is modelled by a `nan` operand). -/
def jmul : JSNum → JSNum → JSNum
  | .num a, .num b => .num (a * b)
  | _, _ => .nan

/-- JS division by the nonzero literal 4, as in `totalWeight / 4`. -/
def jdiv4 : JSNum → JSNum
  | .num a => .num (a / 4)
  | .nan => .nan

/-- `Math.ceil`; `Math.ceil(NaN)` is `NaN`. -/
def jceil : JSNum → JSNum
  | .num a => .num ((Int.ceil a : ℤ) : ℚ)
  | .nan => .nan

/-- `Number.MAX_SAFE_INTEGER`. -/
def maxSafeInteger : ℚ := 9007199254740991

/-- The error condition of the source's `checkUInt53`:
`n < 0 || n > Number.MAX_SAFE_INTEGER || n % 1 !== 0` (for finite `n`,
`n % 1 !== 0` holds exactly when `n` is not an integer). `true` means the
source throws a `RangeError`. -/
def badUInt53 (n : ℚ) : Bool :=
  decide (n < 0) || decide (maxSafeInteger < n) || decide (n.den ≠ 1)

/-- The source's `varIntLength`, after its `checkUInt53` guard passed:
`< 0xfd → 1`, `≤ 0xffff → 3`, `≤ 0xffffffff → 5`, else `9`. -/
def varIntLen (n : ℚ) : ℤ :=
  if n < 0xfd then 1 else if n ≤ 0xffff then 3 else if n ≤ 0xffffffff then 5 else 9

/-- JS `String.prototype.split` with a single-character separator, over
character lists; always returns at least one (possibly empty) group. -/
def splitOnChar (sep : Char) : List Char → List (List Char)
  | [] => [[]]
  | c :: cs =>
    if c = sep then [] :: splitOnChar sep cs
    else
      match splitOnChar sep cs with
      | [] => [[c]]
      | g :: gs => (c :: g) :: gs

/-- Digits of a decimal numeral, folded to a natural number. -/
def digitsVal (ds : List Char) : ℕ :=
  ds.foldl (fun a c => a * 10 + (c.toNat - 48)) 0

/-- JS `parseInt` (radix 10) restricted to what the source feeds it: an
optional sign followed by a longest run of leading digits; no digits
yields `NaN`. -/
def parseIntJS (cs : List Char) : JSNum :=
  match cs with
  | '-' :: rest =>
    let ds := rest.takeWhile Char.isDigit
    if ds.isEmpty then .nan else .num (-(digitsVal ds : ℤ) : ℤ)
  | '+' :: rest =>
    let ds := rest.takeWhile Char.isDigit
    if ds.isEmpty then .nan else .num ((digitsVal ds : ℤ) : ℚ)
  | rest =>
    let ds := rest.takeWhile Char.isDigit
    if ds.isEmpty then .nan else .num ((digitsVal ds : ℤ) : ℚ)

/-- The source's `IO_TYPES.inputs` table (weight units). The `P2PKH`
entry is the intentionally adjusted `147 * 4` (not the commonly cited
148-byte size), kept bit-exact from the source. -/
def inputWeightOf (k : List Char) : Option ℤ :=
  if k = "MULTISIG-P2SH".data then some (49 * 4)
  else if k = "MULTISIG-P2WSH".data then some (6 + 41 * 4)
  else if k = "MULTISIG-P2SH-P2WSH".data then some (6 + 76 * 4)
  else if k = "P2PKH".data then some (147 * 4)
  else if k = "P2WPKH".data then some (108 + 41 * 4)
  else if k = "P2SH-P2WPKH".data then some (108 + 64 * 4)
  else none

/-- The source's `IO_TYPES.outputs` table (weight units). -/
def outputWeightOf (k : List Char) : Option ℤ :=
  if k = "P2SH".data then some (32 * 4)
  else if k = "P2SH-P2WPKH".data then some (32 * 4)
  else if k = "P2PKH".data then some (34 * 4)
  else if k = "P2WPKH".data then some (31 * 4)
  else if k = "P2WSH".data then some (43 * 4)
  else none

/-- A table lookup as the JS expression uses it: a missing key is
`undefined`, which behaves as `NaN` in the subsequent arithmetic. -/
def lookupJS (f : List Char → Option ℤ) (k : List Char) : JSNum :=
  match f k with
  | some w => .num (w : ℚ)
  | none => .nan

/-- JS indexing `l[i]` on the `mAndN` array: out of range is `undefined`,
which behaves as `NaN` in the arithmetic that consumes it. -/
def getJS (l : List JSNum) (i : ℕ) : JSNum := l.getD i .nan

/-- `key.slice(0, 8) === 'MULTISIG'`. -/
def isMultisigKey (k : List Char) : Bool := k.take 8 = "MULTISIG".data

/-- `key.indexOf('W') >= 0`. -/
def keyHasW (k : List Char) : Bool := k.any (· = 'W')

/-- Mutable state of `getByteCount`'s traversal: `totalWeight`,
`hasWitness`, `inputCount`, `outputCount`. -/
structure GBState where
  totalWeight : JSNum
  hasWitness : Bool
  inputCount : ℚ
  outputCount : ℚ
deriving DecidableEq, Repr

def initGBState : GBState := ⟨.num 0, false, 0, 0⟩

/-- One iteration of the `Object.keys(inputs).forEach` body of
`getByteCount`: `checkUInt53` on the count, multisig tag parsing (a tag
whose colon-split does not have exactly two parts throws), weight
accumulation, input count accumulation, and the witness-marker scan. -/
def processInput (st : GBState) (e : String × ℚ) : Except String GBState :=
  let k := e.1.data
  if badUInt53 e.2 then .error "value out of range"
  else if isMultisigKey k then
    let parts := splitOnChar ':' k
    if parts.length ≠ 2 then .error ("invalid input: " ++ e.1)
    else
      let newKey := parts.headD []
      let mAndN := (splitOnChar '-' (parts.getD 1 [])).map parseIntJS
      let w1 := jmul (lookupJS inputWeightOf newKey) (.num e.2)
      let mult : ℚ := if newKey = "MULTISIG-P2SH".data then 4 else 1
      let w2 := jmul (jmul (jadd (jmul (.num 73) (getJS mAndN 0))
                                 (jmul (.num 34) (getJS mAndN 1))) (.num mult)) (.num e.2)
      .ok { totalWeight := jadd (jadd st.totalWeight w1) w2
            hasWitness := st.hasWitness || keyHasW k
            inputCount := st.inputCount + e.2
            outputCount := st.outputCount }
  else
    .ok { totalWeight := jadd st.totalWeight (jmul (lookupJS inputWeightOf k) (.num e.2))
          hasWitness := st.hasWitness || keyHasW k
          inputCount := st.inputCount + e.2
          outputCount := st.outputCount }

/-- One iteration of the `Object.keys(outputs).forEach` body: only the
count check, the weight accumulation and the output count; output keys
are never parsed as multisig tags and never touch `hasWitness`. -/
def processOutput (st : GBState) (e : String × ℚ) : Except String GBState :=
  if badUInt53 e.2 then .error "value out of range"
  else
    .ok { totalWeight := jadd st.totalWeight (jmul (lookupJS outputWeightOf e.1.data) (.num e.2))
          hasWitness := st.hasWitness
          inputCount := st.inputCount
          outputCount := st.outputCount + e.2 }

/-- Sequential traversal of the entries of a JS object (its keys in
insertion order), with the first thrown exception aborting the whole
call. -/
def runEntries (f : GBState → (String × ℚ) → Except String GBState) :
    GBState → List (String × ℚ) → Except String GBState
  | st, [] => .ok st
  | st, e :: rest =>
    match f st e with
    | .error msg => .error msg
    | .ok st2 => runEntries f st2 rest

/-- The source's `getByteCount(inputs, outputs)`: traverse the input
entries, then the output entries, add the 2-weight-unit witness
marker/flag if `hasWitness` was set, add the fixed `8 * 4` overhead and
the varint sizes of the two total counts (each guarded by
`checkUInt53`), and return `Math.ceil(totalWeight / 4)`. -/
def getByteCount (ins outs : List (String × ℚ)) : Except String JSNum :=
  match runEntries processInput initGBState ins with
  | .error msg => .error msg
  | .ok st1 =>
    match runEntries processOutput st1 outs with
    | .error msg => .error msg
    | .ok st2 =>
      let w1 := if st2.hasWitness then jadd st2.totalWeight (.num 2) else st2.totalWeight
      let w2 := jadd w1 (.num (8 * 4))
      if badUInt53 st2.inputCount then .error "value out of range"
      else if badUInt53 st2.outputCount then .error "value out of range"
      else
        let w3 := jadd (jadd w2 (.num ((varIntLen st2.inputCount * 4 : ℤ) : ℚ)))
                       (.num ((varIntLen st2.outputCount * 4 : ℤ) : ℚ))
        .ok (jceil (jdiv4 w3))

/-- A coin / payment target: `{ value, address, change, scriptType }`.
The script type is the optional `type()` tag consulted by
`transactionBytes`; a missing tag is treated as `P2PKH` there.  Values
are integers (smallest currency unit), per the spec's data model. -/
structure Coin where
  value : ℤ
  address : String := ""
  change : Bool := false
  ctype : Option String := none
deriving DecidableEq, Repr

/-- A selection result: `{ fee, inputs, outputs }`. -/
structure Selection where
  fee : ℤ
  inputs : List Coin
  outputs : List Coin
deriving DecidableEq, Repr

/-- Modelled from the spec: `Coin.empty` from the missing `coin.js` —
the identity of the coin value monoid (`List(...).fold(Coin.empty)`),
a valueless coin with no script-type tag. -/
def emptyCoin : Coin := ⟨0, "", false, none⟩

/-- Sum of the values of a list of coins (the source's
`List(coins).fold(Coin.empty).value`). -/
def coinSum (l : List Coin) : ℤ := (l.map Coin.value).sum

/-- Modelled from the spec: `Coin.inputBytes` from the missing
`coin.js`.  The spec (§4.2) fixes only that the empty coin uses the
default P2PKH-equivalent size; the commonly cited 148-byte P2PKH input
size (base + pubkey-hash script) is used for every coin. -/
def inputBytesC (_ : Coin) : ℤ := 148

/-- Modelled from the spec: `Coin.outputBytes` from the missing
`coin.js` — the P2PKH-equivalent output size (base 9 + pubkey-hash
script 25 = 34 bytes), also the source's
`TX_OUTPUT_BASE + TX_OUTPUT_PUBKEYHASH`. -/
def outputBytesC (_ : Coin) : ℤ := 34

/-- Modelled from the spec: `Coin.effectiveValue(feeRate, coin) =
coin.value − inputBytes(coin) × feeRate` (§4.2), from the missing
`coin.js`. -/
def effectiveValue (feePerByte : ℤ) (c : Coin) : ℤ :=
  c.value - inputBytesC c * feePerByte

/-- Sum of the effective values of a list of coins — the accumulated
`effValue` of a branch-and-bound selection. -/
def effSum (feePerByte : ℤ) (l : List Coin) : ℤ :=
  (l.map (effectiveValue feePerByte)).sum

/-- The source's `dustThreshold(feeRate) =
(Coin.inputBytes({}) + Coin.outputBytes({})) * feeRate`. -/
def dustThreshold (feePerByte : ℤ) : ℤ :=
  (inputBytesC emptyCoin + outputBytesC emptyCoin) * feePerByte

/-- The source's `changeBytes() = TX_OUTPUT_BASE + TX_OUTPUT_PUBKEYHASH`
(the two constants come from the missing `coin.js`, see
`outputBytesC`). -/
def changeBytes : ℤ := 34

/-- The `coinTypeReducer` key of a coin:
`coin.type ? coin.type() : 'P2PKH'`. -/
def coinTypeKey (c : Coin) : String := c.ctype.getD "P2PKH"

/-- Insert one occurrence of a key into an ordered count map, as
incrementing a field of a JS object does (first occurrence fixes the
position). -/
def bumpKey : List (String × ℚ) → String → List (String × ℚ)
  | [], k => [(k, 1)]
  | (k0, n) :: rest, k =>
    if k0 = k then (k0, n + 1) :: rest else (k0, n) :: bumpKey rest k

/-- The `reduce(coinTypeReducer, {}, coins)` collection of type counts,
in JS object key insertion order. -/
def collectTypes (l : List Coin) : List (String × ℚ) :=
  l.foldl (fun acc c => bumpKey acc (coinTypeKey c)) []

/-- The source's `transactionBytes(inputs, outputs) =
getByteCount(inputTypeCollection, outputTypeCollection)`. -/
def transactionBytes (ins outs : List Coin) : Except String JSNum :=
  getByteCount (collectTypes ins) (collectTypes outs)

/-- `transactionBytes` with its numeric result extracted: `.ok none` is
the `NaN` outcome (an unknown script type), `.error` a thrown
exception.  The weight returned by `getByteCount` is already integral
(`Math.ceil`), so the integer extraction is exact. -/
def txBytesInt (ins outs : List Coin) : Except String (Option ℤ) :=
  match transactionBytes ins outs with
  | .error msg => .error msg
  | .ok .nan => .ok none
  | .ok (.num q) => .ok (some (Int.ceil q))

/-- The coins kept by every strategy's eligibility filter:
`Coin.effectiveValue(feePerByte, c) > 0`. -/
def effectiveCoinsOf (feePerByte : ℤ) (coins : List Coin) : List Coin :=
  coins.filter (fun c => 0 < effectiveValue feePerByte c)

/-- The `unfold(_findTarget, [0, partialFee, effectiveCoins])` lazy
accumulation of `findTarget`: each emitted entry is
`[nextAcc, partialFee, newCoin]`; the unfold stops when the coins are
exhausted, when the already-accumulated value exceeds
`target + fee`, or when it exceeds `target + fee` after charging the
next coin's marginal input cost. -/
def ftSteps (target feePerByte : ℤ) : ℤ → ℤ → List Coin → List (ℤ × ℤ × Coin)
  | _, _, [] => []
  | acc, fee, c :: cs =>
    if target + fee < acc then []
    else
      let pFee := fee + inputBytesC c * feePerByte
      if target + pFee < acc then []
      else (acc + c.value, pFee, c) :: ftSteps target feePerByte (acc + c.value) pFee cs

/-- The target-matching core `ft` (exported as `findTarget` through a
memoization wrapper).  The `.ok none` byte-count outcome is the source's
`NaN` fee path (it returns a selection whose fee is `NaN`, a value with
no integer denotation), surfaced here as an error. -/
def ft (targets : List Coin) (feePerByte : ℤ) (coins : List Coin)
    (changeAddress : String) : Except String Selection :=
  match txBytesInt [] targets with
  | .error msg => .error msg
  | .ok none => .error "NaN byte count"
  | .ok (some tb) =>
    let target := coinSum targets
    let baseFee := tb * feePerByte
    let sel := ftSteps target feePerByte 0 baseFee (effectiveCoinsOf feePerByte coins)
    match sel.getLast? with
    | none => .ok ⟨0, [], []⟩
    | some lastE =>
      let maxBalance := lastE.1
      let fee := lastE.2.1
      let selectedCoins := sel.map (fun e => e.2.2)
      if maxBalance < target + fee then .ok ⟨fee, [], targets⟩
      else
        let extra := maxBalance - target - fee
        let feeChange := changeBytes * feePerByte
        let extraWithChangeFee := extra - feeChange
        if dustThreshold feePerByte ≤ extraWithChangeFee then
          .ok ⟨fee + feeChange, selectedCoins,
               targets ++ [⟨extraWithChangeFee, changeAddress, true, none⟩]⟩
        else .ok ⟨fee + extra, selectedCoins, targets⟩

/-- `findTarget = memoize(ft)`: memoization of a pure function is the
function itself. -/
def findTarget := ft

/-- The source's `effectiveBalance(feePerByte, inputs, outputs = [{}])`:
the folded input value clamped at `0` after subtracting the transaction
byte cost (the `NaN` path surfaces as an error, as in `ft`). -/
def effectiveBalance (feePerByte : ℤ) (inputs : List Coin)
    (outputs : List Coin := [emptyCoin]) : Except String ℤ :=
  match txBytesInt inputs outputs with
  | .error msg => .error msg
  | .ok none => .error "NaN byte count"
  | .ok (some tb) => .ok (max 0 (coinSum inputs - tb * feePerByte))

/-- The source's `selectAll(feePerByte, coins, outAddress)`: spend every
effective-value-positive coin, pay the whole effective balance to one
output, fee = gross balance − effective balance. -/
def selectAll (feePerByte : ℤ) (coins : List Coin)
    (outAddress : String) : Except String Selection :=
  let effectiveCoins := effectiveCoinsOf feePerByte coins
  match effectiveBalance feePerByte effectiveCoins with
  | .error msg => .error msg
  | .ok effBalance =>
    let balance := coinSum effectiveCoins
    .ok ⟨balance - effBalance, effectiveCoins, [⟨effBalance, outAddress, false, none⟩]⟩

/-- Modelled from the spec: the ordering produced by
`sort((a, b) => a.lte(b), coins)` with the missing `coin.js`'s `lte`.
The spec (§4.4) describes this very expression, in `descentDraw`, as
sorting the coins largest-first, so it is modelled as a stable
insertion sort descending by value (a boolean comparator makes
`Array.prototype.sort` shift an element past every `lte` predecessor). -/
def insertDescByValue (c : Coin) : List Coin → List Coin
  | [] => [c]
  | d :: ds => if d.value ≤ c.value then c :: d :: ds else d :: insertDescByValue c ds

/-- `sort((a, b) => a.lte(b), coins)`: largest-first (see
`insertDescByValue`). -/
def sortLte (coins : List Coin) : List Coin :=
  coins.foldl (fun acc c => insertDescByValue c acc) []

/-- Modelled from the spec: the mirrored ordering of
`sort((a, b) => b.lte(a), coins)` used by `ascentDraw`, which the spec
(§4.4) describes as smallest-first. -/
def insertAscByValue (c : Coin) : List Coin → List Coin
  | [] => [c]
  | d :: ds => if c.value ≤ d.value then c :: d :: ds else d :: insertAscByValue c ds

/-- `sort((a, b) => b.lte(a), coins)`: smallest-first (see
`insertAscByValue`). -/
def sortGte (coins : List Coin) : List Coin :=
  coins.foldl (fun acc c => insertAscByValue c acc) []

/-- List element swap for the shuffle; indices out of range leave the
list unchanged. -/
def swapIdx (l : List Coin) (i j : ℕ) : List Coin :=
  match l.get? i, l.get? j with
  | some a, some b => (l.set i b).set j a
  | _, _ => l

/-- Modelled from the spec: the Fisher–Yates permutation of the external
`fisher-yates` package (§4.4), driven by a stream of random draws in
`[0, 1)`: for `n` from `length` down to `1`, draw `r`, swap positions
`n − 1` and `⌊r · n⌋`. -/
def fyGo (rand : ℕ → ℚ) : ℕ → ℕ → List Coin → List Coin
  | 0, _, l => l
  | n + 1, idx, l =>
    let i := (Int.floor (rand idx * (n + 1))).toNat
    fyGo rand n (idx + 1) (swapIdx l n i)

/-- Modelled from the spec: `shuffle(coins, rng)` of the external
`fisher-yates` package. -/
def fyShuffle (rand : ℕ → ℚ) (l : List Coin) : List Coin :=
  fyGo rand l.length 0 l

/-- The source's `singleRandomDraw(targets, feePerByte, coins,
changeAddress, seed)`.  A string seed makes `rng = seedrandom(seed)`, a
deterministic stream that is a pure function of the seed — modelled as
the stream itself (`seedStream`); without a seed the `fisher-yates`
package falls back to `Math.random`, modelled as the ambient
non-deterministic stream `defaultRand`. -/
def singleRandomDraw (targets : List Coin) (feePerByte : ℤ) (coins : List Coin)
    (changeAddress : String) (seedStream : Option (ℕ → ℚ))
    (defaultRand : ℕ → ℚ) : Except String Selection :=
  let rng := seedStream.getD defaultRand
  findTarget targets feePerByte (fyShuffle rng coins) changeAddress

/-- The source's `descentDraw`: match over the largest-first ordering. -/
def descentDraw (targets : List Coin) (feePerByte : ℤ) (coins : List Coin)
    (changeAddress : String) : Except String Selection :=
  findTarget targets feePerByte (sortLte coins) changeAddress

/-- The source's `ascentDraw`: match over the smallest-first ordering. -/
def ascentDraw (targets : List Coin) (feePerByte : ℤ) (coins : List Coin)
    (changeAddress : String) : Except String Selection :=
  findTarget targets feePerByte (sortGte coins) changeAddress

/-- Result of one branch-and-bound exploration: the selection found
(`[]` for failure), the remaining try budget, and the consumed positions
of the seeded and default random streams. -/
structure BnbOut where
  sel : List Coin
  tries : ℤ
  si : ℕ
  di : ℕ
deriving DecidableEq, Repr

/-- The branch-order decision `(rng && rng()) || Math.random() > 0.5`:
with a seeded `rng`, one seeded draw is consumed and any nonzero (truthy)
value selects the include-first branch — only a draw of exactly `0`
falls through to `Math.random() > 0.5`, which consumes a draw of the
non-deterministic default stream; without a seed only the default stream
is consulted. -/
def branchChoice (seedStream : Option (ℕ → ℚ)) (defaultRand : ℕ → ℚ)
    (si di : ℕ) : Bool × ℕ × ℕ :=
  match seedStream with
  | some s =>
    if s si ≠ 0 then (true, si + 1, di)
    else (decide ((1 : ℚ) / 2 < defaultRand di), si + 1, di + 1)
  | none => (decide ((1 : ℚ) / 2 < defaultRand di), si, di + 1)

/-- The recursive `_branchAndBound(depth, currentSelection, effValue)`.
The remaining list is the suffix `sortedCoins[depth..]`; the try counter
is decremented on entry; the guards fire in source order: value cut,
match, budget exhaustion, depth exhaustion; otherwise the two branches
(include / exclude the next coin) are explored in the order given by
`branchChoice`, the second only if the first returns an empty
selection. -/
def bnbGo (feePerByte targetForMatch matchRange : ℤ)
    (seedStream : Option (ℕ → ℚ)) (defaultRand : ℕ → ℚ) :
    List Coin → List Coin → ℤ → ℤ → ℕ → ℕ → BnbOut
  | [], curSel, effValue, tries, si, di =>
    let tries1 := tries - 1
    if targetForMatch + matchRange < effValue then ⟨[], tries1, si, di⟩
    else if targetForMatch ≤ effValue then ⟨curSel, tries1, si, di⟩
    else if tries1 < 1 then ⟨[], tries1, si, di⟩
    else ⟨[], tries1, si, di⟩
  | c :: rest, curSel, effValue, tries, si, di =>
    let tries1 := tries - 1
    if targetForMatch + matchRange < effValue then ⟨[], tries1, si, di⟩
    else if targetForMatch ≤ effValue then ⟨curSel, tries1, si, di⟩
    else if tries1 < 1 then ⟨[], tries1, si, di⟩
    else
      let ch := branchChoice seedStream defaultRand si di
      if ch.1 then
        let rIncl := bnbGo feePerByte targetForMatch matchRange seedStream defaultRand
          rest (curSel ++ [c]) (effValue + effectiveValue feePerByte c) tries1 ch.2.1 ch.2.2
        if rIncl.sel = [] then
          bnbGo feePerByte targetForMatch matchRange seedStream defaultRand
            rest curSel effValue rIncl.tries rIncl.si rIncl.di
        else rIncl
      else
        let rExcl := bnbGo feePerByte targetForMatch matchRange seedStream defaultRand
          rest curSel effValue tries1 ch.2.1 ch.2.2
        if rExcl.sel = [] then
          bnbGo feePerByte targetForMatch matchRange seedStream defaultRand
            rest (curSel ++ [c]) (effValue + effectiveValue feePerByte c)
            rExcl.tries rExcl.si rExcl.di
        else rExcl

/-- The source's `bnb` (exported as `branchAndBound` through the
memoization wrapper).  Coins are sorted with the same `a.lte(b)`
comparator as `descentDraw` and filtered to positive effective value;
`targetForMatch = target + transactionBytes([], targets) * feePerByte`
and `matchRange = dustThreshold(feePerByte)`; an empty search result
falls back to `singleRandomDraw` over the filtered sorted coins with the
same seed (a fresh `seedrandom(seed)` restarts the seeded stream), else
the found subset is returned with `fee = sum(values) − target` and the
targets unchanged.  The `NaN` byte-count case makes every comparison in
the search false, so the search returns empty and the fallback runs. -/
def bnb (targets : List Coin) (feePerByte : ℤ) (coins : List Coin)
    (changeAddress : String) (seedStream : Option (ℕ → ℚ))
    (defaultRand : ℕ → ℚ) : Except String Selection :=
  let sortedCoins := (sortLte coins).filter (fun c => 0 < effectiveValue feePerByte c)
  match txBytesInt [] targets with
  | .error msg => .error msg
  | .ok none =>
    singleRandomDraw targets feePerByte sortedCoins changeAddress seedStream defaultRand
  | .ok (some tb) =>
    let target := coinSum targets
    let targetForMatch := target + tb * feePerByte
    let matchRange := dustThreshold feePerByte
    let r := bnbGo feePerByte targetForMatch matchRange seedStream defaultRand
      sortedCoins [] 0 1000000 0 0
    if r.sel = [] then
      singleRandomDraw targets feePerByte sortedCoins changeAddress seedStream defaultRand
    else .ok ⟨coinSum r.sel - target, r.sel, targets⟩

/-- `branchAndBound = memoize(bnb)`. -/
def branchAndBound := bnb

/-- An input entry on which `getByteCount` throws: a count rejected by
`checkUInt53`, or a MULTISIG-prefixed key whose colon-split does not
have exactly two parts. -/
def badInputEntry (e : String × ℚ) : Bool :=
  badUInt53 e.2 ||
    (isMultisigKey e.1.data && decide ((splitOnChar ':' e.1.data).length ≠ 2))

/-- An output entry on which `getByteCount` throws: only a bad count
(output keys are never parsed as multisig tags). -/
def badOutputEntry (e : String × ℚ) : Bool := badUInt53 e.2

/-- Total of the counts of a JS count map. -/
def sumCounts (l : List (String × ℚ)) : ℚ := (l.map (fun e => e.2)).sum

/-- All conditions under which `getByteCount` throws: a bad input entry,
a bad output entry, or a summed input/output count rejected by the
`checkUInt53` guard inside `varIntLength`. -/
def gbcThrows (ins outs : List (String × ℚ)) : Bool :=
  ins.any badInputEntry || outs.any badOutputEntry ||
    badUInt53 (sumCounts ins) || badUInt53 (sumCounts outs)

/-- Whether a fallible result is a thrown exception. -/
def isErr {α : Type} : Except String α → Bool
  | .error _ => true
  | .ok _ => false

/-- The weight one input entry adds to `totalWeight` (non-throwing
case): the two `totalWeight +=` statements of the multisig branch, or
the single one of the plain branch. -/
def inputEntryWeight (e : String × ℚ) : JSNum :=
  let k := e.1.data
  if isMultisigKey k then
    let parts := splitOnChar ':' k
    let newKey := parts.headD []
    let mAndN := (splitOnChar '-' (parts.getD 1 [])).map parseIntJS
    let mult : ℚ := if newKey = "MULTISIG-P2SH".data then 4 else 1
    jadd (jmul (lookupJS inputWeightOf newKey) (.num e.2))
         (jmul (jmul (jadd (jmul (.num 73) (getJS mAndN 0))
                           (jmul (.num 34) (getJS mAndN 1))) (.num mult)) (.num e.2))
  else jmul (lookupJS inputWeightOf k) (.num e.2)

/-- The weight one output entry adds to `totalWeight`. -/
def outputEntryWeight (e : String × ℚ) : JSNum :=
  jmul (lookupJS outputWeightOf e.1.data) (.num e.2)

/-- Whether some input key contains the witness marker `'W'` — the only
keys `getByteCount` scans for it. -/
def anyInputW (ins : List (String × ℚ)) : Bool :=
  ins.any (fun e => keyHasW e.1.data)

/-- Closed-formula version of `getByteCount` on the non-throwing path:
summed input-entry weights, then output-entry weights, the witness
marker/flag overhead (decided by input keys only), the fixed `8 * 4`
overhead and the varint sizes of the summed counts, divided by 4 and
ceiled. -/
def gbcFormula (ins outs : List (String × ℚ)) : JSNum :=
  let w0 := outs.foldl (fun a e => jadd a (outputEntryWeight e))
    (ins.foldl (fun a e => jadd a (inputEntryWeight e)) (.num 0))
  let w1 := if anyInputW ins then jadd w0 (.num 2) else w0
  let w2 := jadd w1 (.num (8 * 4))
  let w3 := jadd (jadd w2 (.num ((varIntLen (sumCounts ins) * 4 : ℤ) : ℚ)))
    (.num ((varIntLen (sumCounts outs) * 4 : ℤ) : ℚ))
  jceil (jdiv4 w3)

/-- The byte count as claim C7 words it: the witness marker/flag
overhead is added once if ANY input type key **or output type key**
includes the witness marker.  This definition follows the claim's words
(not the source), for comparison with `getByteCount`. -/
def gbcWitnessBothFormula (ins outs : List (String × ℚ)) : JSNum :=
  let w0 := outs.foldl (fun a e => jadd a (outputEntryWeight e))
    (ins.foldl (fun a e => jadd a (inputEntryWeight e)) (.num 0))
  let w1 := if anyInputW ins || outs.any (fun e => keyHasW e.1.data) then
    jadd w0 (.num 2) else w0
  let w2 := jadd w1 (.num (8 * 4))
  let w3 := jadd (jadd w2 (.num ((varIntLen (sumCounts ins) * 4 : ℤ) : ℚ)))
    (.num ((varIntLen (sumCounts outs) * 4 : ℤ) : ℚ))
  jceil (jdiv4 w3)

/-- Concrete target list for the branch-and-bound examples. -/
def exTargets : List Coin := [⟨300, "t", false, none⟩]

/-- Two coins (values 100 and 200) for the exact-match examples. -/
def exCoins2 : List Coin := [⟨100, "a", false, none⟩, ⟨200, "b", false, none⟩]

/-- Three coins (100, 200, 300), giving two distinct exact-match
subsets for target 300. -/
def exCoins3 : List Coin :=
  [⟨100, "a", false, none⟩, ⟨200, "b", false, none⟩, ⟨300, "c", false, none⟩]

/-- A seeded stream whose draws are all `1/2` (never falsy). -/
def halfStream : ℕ → ℚ := fun _ => 1 / 2

/-- A seeded stream whose first draw is exactly `0` (falsy) and the rest
`1/2`. -/
def zeroFirstStream : ℕ → ℚ := fun n => if n = 0 then 0 else 1 / 2

/-- A default (Math.random) stream of constant `1`. -/
def oneStream : ℕ → ℚ := fun _ => 1

/-- A default (Math.random) stream of constant `0`. -/
def zeroStream : ℕ → ℚ := fun _ => 0

/-- Decidable equality of fallible results, for concrete evaluation. -/
instance exceptDecEq {ε α : Type} [DecidableEq ε] [DecidableEq α] :
    DecidableEq (Except ε α) := fun a b =>
  match a, b with
  | .error e1, .error e2 =>
    if h : e1 = e2 then .isTrue (by rw [h]) else .isFalse (by simp [h])
  | .ok a1, .ok a2 =>
    if h : a1 = a2 then .isTrue (by rw [h]) else .isFalse (by simp [h])
  | .error _, .ok _ => .isFalse (by simp)
  | .ok _, .error _ => .isFalse (by simp)

theorem jadd_nan_left (x : JSNum) : jadd .nan x = .nan := by cases x <;> rfl

theorem jadd_nan_right (x : JSNum) : jadd x .nan = .nan := by cases x <;> rfl

theorem jmul_nan_left (x : JSNum) : jmul .nan x = .nan := by cases x <;> rfl

theorem jadd_assoc (a b c : JSNum) : jadd (jadd a b) c = jadd a (jadd b c) := by
  cases a <;> cases b <;> cases c <;> simp [jadd, add_assoc]

theorem coinSum_nil : coinSum [] = 0 := rfl

theorem coinSum_cons (c : Coin) (l : List Coin) :
    coinSum (c :: l) = c.value + coinSum l := by simp [coinSum]

theorem coinSum_append (a b : List Coin) :
    coinSum (a ++ b) = coinSum a + coinSum b := by simp [coinSum]

theorem ftSteps_cons (t f acc fee : ℤ) (c : Coin) (cs : List Coin) :
    ftSteps t f acc fee (c :: cs) =
      if t + fee < acc then []
      else if t + (fee + inputBytesC c * f) < acc then []
      else (acc + c.value, fee + inputBytesC c * f, c) ::
        ftSteps t f (acc + c.value) (fee + inputBytesC c * f) cs := rfl

/-- The running balance recorded in the last emitted accumulation entry
is the starting balance plus the sum of the selected coins' values. -/
theorem ftSteps_last_acc (t f : ℤ) (cs : List Coin) :
    ∀ (acc fee : ℤ) (e : ℤ × ℤ × Coin),
      (ftSteps t f acc fee cs).getLast? = some e →
      e.1 = acc + coinSum ((ftSteps t f acc fee cs).map (fun x => x.2.2)) := by
  induction cs with
  | nil => intro acc fee e h; simp [ftSteps] at h
  | cons c cs ih =>
    intro acc fee e h
    rw [ftSteps_cons] at h ⊢
    split_ifs at h ⊢ with h1 h2
    · simp at h
    · simp at h
    · rcases hcs : ftSteps t f (acc + c.value) (fee + inputBytesC c * f) cs with _ | ⟨r, rs⟩
      · rw [hcs] at h
        simp only [List.getLast?_singleton, Option.some.injEq] at h
        subst h
        simp [coinSum]
      · rw [hcs, List.getLast?_cons_cons] at h
        have hrec := ih (acc + c.value) (fee + inputBytesC c * f) e (by rw [hcs]; exact h)
        rw [hcs] at hrec
        simp only [List.map_cons, coinSum_cons] at hrec ⊢
        omega

/-- Value conservation for the target-matching core: a returned
selection with non-empty inputs balances exactly. -/
theorem ft_conserves (targets : List Coin) (fpb : ℤ) (coins : List Coin)
    (addr : String) (s : Selection) (h : ft targets fpb coins addr = .ok s)
    (hne : s.inputs ≠ []) : coinSum s.inputs = coinSum s.outputs + s.fee := by
  unfold ft at h
  cases htb : txBytesInt [] targets with
  | error msg => rw [htb] at h; simp at h
  | ok otb =>
    rw [htb] at h
    cases otb with
    | none => simp at h
    | some tb =>
      dsimp only at h
      cases hlast : (ftSteps (coinSum targets) fpb 0 (tb * fpb)
          (effectiveCoinsOf fpb coins)).getLast? with
      | none => rw [hlast] at h; simp only [Except.ok.injEq] at h; subst h; simp at hne
      | some lastE =>
        rw [hlast] at h
        have hacc := ftSteps_last_acc (coinSum targets) fpb (effectiveCoinsOf fpb coins)
          0 (tb * fpb) lastE hlast
        dsimp only at h
        split_ifs at h with h1 h2
        · simp only [Except.ok.injEq] at h; subst h; simp at hne
        · simp only [Except.ok.injEq] at h; subst h
          dsimp only
          simp only [coinSum_append, coinSum_cons, coinSum_nil]
          omega
        · simp only [Except.ok.injEq] at h; subst h
          dsimp only
          omega

/-- Value conservation for `singleRandomDraw` (it is `ft` over the
shuffled coins). -/
theorem srd_conserves (targets : List Coin) (fpb : ℤ) (coins : List Coin)
    (addr : String) (sd : Option (ℕ → ℚ)) (df : ℕ → ℚ) (s : Selection)
    (h : singleRandomDraw targets fpb coins addr sd df = .ok s)
    (hne : s.inputs ≠ []) : coinSum s.inputs = coinSum s.outputs + s.fee := by
  have h2 : ft targets fpb (fyShuffle (sd.getD df) coins) addr = .ok s := h
  exact ft_conserves _ _ _ _ _ h2 hne

/-- C1.  For every Selection returned with a non-empty inputs sequence
by any strategy — the `findTarget`-backed strategies (`findTarget` /
`ft` itself, `singleRandomDraw`, `descentDraw`, `ascentDraw`),
`selectAll`, or a `branchAndBound` exact match — the sum of the values
of the inputs equals the sum of the values of the outputs plus the fee,
exactly, in integer arithmetic. -/
theorem c1_value_conservation :
    (∀ targets fpb coins addr s, ft targets fpb coins addr = .ok s →
      s.inputs ≠ [] → coinSum s.inputs = coinSum s.outputs + s.fee)
    ∧ (∀ fpb coins addr s, selectAll fpb coins addr = .ok s →
      s.inputs ≠ [] → coinSum s.inputs = coinSum s.outputs + s.fee)
    ∧ (∀ targets fpb coins addr sd df s,
      singleRandomDraw targets fpb coins addr sd df = .ok s →
      s.inputs ≠ [] → coinSum s.inputs = coinSum s.outputs + s.fee)
    ∧ (∀ targets fpb coins addr s, descentDraw targets fpb coins addr = .ok s →
      s.inputs ≠ [] → coinSum s.inputs = coinSum s.outputs + s.fee)
    ∧ (∀ targets fpb coins addr s, ascentDraw targets fpb coins addr = .ok s →
      s.inputs ≠ [] → coinSum s.inputs = coinSum s.outputs + s.fee)
    ∧ (∀ targets fpb coins addr sd df s, bnb targets fpb coins addr sd df = .ok s →
      s.inputs ≠ [] → coinSum s.inputs = coinSum s.outputs + s.fee) := by
  refine ⟨ft_conserves, ?_, srd_conserves, ?_, ?_, ?_⟩
  · intro fpb coins addr s h _
    unfold selectAll at h
    dsimp only at h
    cases heb : effectiveBalance fpb (effectiveCoinsOf fpb coins) with
    | error msg => rw [heb] at h; simp at h
    | ok effB =>
      rw [heb] at h
      simp only [Except.ok.injEq] at h
      subst h
      dsimp only
      simp only [coinSum_cons, coinSum_nil]
      omega
  · intro targets fpb coins addr s h hne
    exact ft_conserves _ _ _ _ _ h hne
  · intro targets fpb coins addr s h hne
    exact ft_conserves _ _ _ _ _ h hne
  · intro targets fpb coins addr sd df s h hne
    unfold bnb at h
    cases htb : txBytesInt [] targets with
    | error msg => rw [htb] at h; simp at h
    | ok otb =>
      rw [htb] at h
      cases otb with
      | none => exact srd_conserves _ _ _ _ _ _ _ h hne
      | some tb =>
        dsimp only at h
        split_ifs at h with hsel
        · exact srd_conserves _ _ _ _ _ _ _ h hne
        · simp only [Except.ok.injEq] at h
          subst h
          dsimp only
          omega

unseal Rat.add Rat.mul Rat.sub Rat.inv in
/-- Witness for C1: a concrete run of `ft` with non-empty inputs,
balancing exactly. -/
theorem c1_value_conservation_witness :
    (ft [⟨1000, "t", false, none⟩] 1 [⟨2000, "b", false, none⟩] "ch" =
      .ok ⟨226, [⟨2000, "b", false, none⟩],
        [⟨1000, "t", false, none⟩, ⟨774, "ch", true, none⟩]⟩)
    ∧ coinSum [⟨2000, "b", false, none⟩] =
        coinSum [⟨1000, "t", false, none⟩, ⟨774, "ch", true, none⟩] + 226 := by
  constructor
  · decide
  · have h : ft [⟨1000, "t", false, none⟩] 1 [⟨2000, "b", false, none⟩] "ch" =
        .ok ⟨226, [⟨2000, "b", false, none⟩],
          [⟨1000, "t", false, none⟩, ⟨774, "ch", true, none⟩]⟩ := by decide
    exact c1_value_conservation.1 _ _ _ _ _ h (by decide)

/-- C2.  In the target-matching core, when the accumulated balance
(the last accumulation entry `e`, with balance `e.1` and fee `e.2.1`)
covers target plus fee: with `extra = e.1 − target − fee` and
`changeFee = changeBytes() × feeRate`, if `extra − changeFee ≥
dustThreshold(feeRate)` the result has one extra change output of value
exactly `extra − changeFee` at the change address and the fee grows by
`changeFee`; otherwise the whole `extra` is burned into the fee and no
change output is emitted.  Consequently every change-marked output of
any `ft` result has value at least `dustThreshold(feeRate)`. -/
theorem c2_change_dust_policy :
    ∀ (targets : List Coin) (fpb : ℤ) (coins : List Coin) (addr : String)
      (tb : ℤ) (e : ℤ × ℤ × Coin),
      txBytesInt [] targets = .ok (some tb) →
      (ftSteps (coinSum targets) fpb 0 (tb * fpb)
        (effectiveCoinsOf fpb coins)).getLast? = some e →
      coinSum targets + e.2.1 ≤ e.1 →
      (∀ c ∈ targets, c.change = false) →
      ((dustThreshold fpb ≤ e.1 - coinSum targets - e.2.1 - changeBytes * fpb →
          ft targets fpb coins addr = .ok
            ⟨e.2.1 + changeBytes * fpb,
             (ftSteps (coinSum targets) fpb 0 (tb * fpb)
               (effectiveCoinsOf fpb coins)).map (fun x => x.2.2),
             targets ++ [⟨e.1 - coinSum targets - e.2.1 - changeBytes * fpb,
               addr, true, none⟩]⟩)
        ∧ (e.1 - coinSum targets - e.2.1 - changeBytes * fpb < dustThreshold fpb →
          ft targets fpb coins addr = .ok
            ⟨e.1 - coinSum targets,
             (ftSteps (coinSum targets) fpb 0 (tb * fpb)
               (effectiveCoinsOf fpb coins)).map (fun x => x.2.2),
             targets⟩))
      ∧ (∀ s, ft targets fpb coins addr = .ok s →
          ∀ c ∈ s.outputs, c.change = true → dustThreshold fpb ≤ c.value) := by
  intro targets fpb coins addr tb e htb hlast hcov htgt
  have hconv : ∀ (r : Except String Selection), r = ft targets fpb coins addr →
      r = .ok (if dustThreshold fpb ≤ e.1 - coinSum targets - e.2.1 - changeBytes * fpb
        then ⟨e.2.1 + changeBytes * fpb,
          (ftSteps (coinSum targets) fpb 0 (tb * fpb)
            (effectiveCoinsOf fpb coins)).map (fun x => x.2.2),
          targets ++ [⟨e.1 - coinSum targets - e.2.1 - changeBytes * fpb, addr, true, none⟩]⟩
        else ⟨e.1 - coinSum targets,
          (ftSteps (coinSum targets) fpb 0 (tb * fpb)
            (effectiveCoinsOf fpb coins)).map (fun x => x.2.2), targets⟩) := by
    intro r hr
    unfold ft at hr
    rw [htb] at hr
    dsimp only at hr
    rw [hlast] at hr
    dsimp only at hr
    split_ifs at hr with h1 h2
    · omega
    · rw [hr]
      rw [if_pos h2]
    · rw [hr, if_neg h2]
      simp only [Except.ok.injEq, Selection.mk.injEq]
      exact ⟨by omega, trivial, trivial⟩
  have hmain := hconv (ft targets fpb coins addr) rfl
  constructor
  · constructor
    · intro hdust
      rw [hmain, if_pos hdust]
    · intro hdust
      rw [hmain, if_neg (by omega)]
  · intro s hs c hc hchg
    rw [hs] at hmain
    split_ifs at hmain with hdust
    · simp only [Except.ok.injEq] at hmain
      rw [hmain] at hc
      dsimp only at hc
      rcases List.mem_append.mp hc with hin | hin
      · exact absurd hchg (by rw [htgt c hin]; simp)
      · simp only [List.mem_singleton] at hin
        rw [hin]
        exact hdust
    · simp only [Except.ok.injEq] at hmain
      rw [hmain] at hc
      dsimp only at hc
      exact absurd hchg (by rw [htgt c hc]; simp)

unseal Rat.add Rat.mul Rat.sub Rat.inv in
/-- Witness for C2: a concrete covering run where the surplus clears the
dust threshold and a change output of exactly `extra − changeFee` is
emitted. -/
theorem c2_change_dust_policy_witness :
    txBytesInt [] [⟨1000, "t", false, none⟩] = .ok (some 44)
    ∧ dustThreshold 1 ≤ 2000 - 1000 - 192 - changeBytes * 1
    ∧ ft [⟨1000, "t", false, none⟩] 1 [⟨2000, "b", false, none⟩] "ch" = .ok
        ⟨192 + changeBytes * 1, [⟨2000, "b", false, none⟩],
         [⟨1000, "t", false, none⟩] ++ [⟨2000 - 1000 - 192 - changeBytes * 1, "ch", true, none⟩]⟩ := by
  refine ⟨by decide, by decide, ?_⟩
  exact ((c2_change_dust_policy [⟨1000, "t", false, none⟩] 1 [⟨2000, "b", false, none⟩]
    "ch" 44 (2000, 192, ⟨2000, "b", false, none⟩) (by decide) (by decide) (by decide)
    (by decide)).1).1 (by decide)

/-- C4.  Whenever selection fails, the target-matching core returns
`inputs = []`: with no spendable (effective-value-positive) coins at all
it returns the zero-fee empty selection `{fee: 0, inputs: [], outputs:
[]}`; when the accumulated balance never reaches `target + fee` it
returns `{fee: accumulated fee, inputs: [], outputs: targets}`. -/
theorem c4_failure_selection :
    ∀ (targets : List Coin) (fpb : ℤ) (coins : List Coin) (addr : String) (tb : ℤ),
      txBytesInt [] targets = .ok (some tb) →
      (effectiveCoinsOf fpb coins = [] →
        ft targets fpb coins addr = .ok ⟨0, [], []⟩)
      ∧ (∀ e, (ftSteps (coinSum targets) fpb 0 (tb * fpb)
            (effectiveCoinsOf fpb coins)).getLast? = some e →
          e.1 < coinSum targets + e.2.1 →
          ft targets fpb coins addr = .ok ⟨e.2.1, [], targets⟩) := by
  intro targets fpb coins addr tb htb
  constructor
  · intro hempty
    unfold ft
    rw [htb]
    dsimp only
    rw [hempty]
    rfl
  · intro e hlast hlt
    unfold ft
    rw [htb]
    dsimp only
    rw [hlast]
    dsimp only
    rw [if_pos hlt]

unseal Rat.add Rat.mul Rat.sub Rat.inv in
/-- Witness for C4: the empty-coin case and a concrete
insufficient-funds case. -/
theorem c4_failure_selection_witness :
    (ft [⟨1000, "t", false, none⟩] 1 [] "ch" = .ok ⟨0, [], []⟩)
    ∧ (ft [⟨1000, "t", false, none⟩] 1 [⟨500, "b", false, none⟩] "ch" =
        .ok ⟨192, [], [⟨1000, "t", false, none⟩]⟩) := by
  constructor
  · exact (c4_failure_selection [⟨1000, "t", false, none⟩] 1 [] "ch" 44 (by decide)).1
      (by decide)
  · exact (c4_failure_selection [⟨1000, "t", false, none⟩] 1 [⟨500, "b", false, none⟩]
      "ch" 44 (by decide)).2 (500, 192, ⟨500, "b", false, none⟩) (by decide) (by decide)

unseal Rat.add Rat.mul Rat.sub Rat.inv in
/-- C9.  `selectAll` always returns exactly one output, whose value is
the effective balance of the eligible coins; in particular, when no
supplied coin has strictly positive effective value (including an empty
coin list), it returns `fee = 0`, `inputs = []` and a single output of
value `0` at the given output address — not an empty output list. -/
theorem c9_select_all :
    ∀ (fpb : ℤ) (coins : List Coin) (addr : String) (s : Selection),
      0 ≤ fpb →
      selectAll fpb coins addr = .ok s →
      (∃ effB, effectiveBalance fpb (effectiveCoinsOf fpb coins) = .ok effB ∧
          s.outputs = [⟨effB, addr, false, none⟩] ∧
          s.fee = coinSum (effectiveCoinsOf fpb coins) - effB ∧
          s.inputs = effectiveCoinsOf fpb coins)
      ∧ (effectiveCoinsOf fpb coins = [] →
          s = ⟨0, [], [⟨0, addr, false, none⟩]⟩) := by
  intro fpb coins addr s hfpb h
  unfold selectAll at h
  dsimp only at h
  cases heb : effectiveBalance fpb (effectiveCoinsOf fpb coins) with
  | error msg => rw [heb] at h; simp at h
  | ok effB =>
    rw [heb] at h
    simp only [Except.ok.injEq] at h
    subst h
    refine ⟨⟨effB, rfl, rfl, rfl, rfl⟩, ?_⟩
    intro hempty
    rw [hempty] at heb
    unfold effectiveBalance at heb
    have h44 : txBytesInt ([] : List Coin) [emptyCoin] = .ok (some 44) := by decide
    rw [h44] at heb
    dsimp only at heb
    simp only [Except.ok.injEq] at heb
    have hz : coinSum ([] : List Coin) = 0 := rfl
    rw [hz] at heb
    have heffB : effB = 0 := by
      rw [← heb, max_eq_left (by omega)]
    subst heffB
    rw [hempty]
    simp only [Selection.mk.injEq]
    exact ⟨by rw [hz]; omega, trivial, trivial⟩

unseal Rat.add Rat.mul Rat.sub Rat.inv in
/-- Witness for C9: an empty coin list at fee rate 1 yields the
zero-fee, zero-value single-output selection. -/
theorem c9_select_all_witness :
    (0 : ℤ) ≤ 1 ∧ effectiveCoinsOf 1 [] = []
    ∧ selectAll 1 [] "out" = .ok ⟨0, [], [⟨0, "out", false, none⟩]⟩
    ∧ (⟨0, [], [⟨0, "out", false, none⟩]⟩ : Selection) =
        ⟨0, [], [⟨0, "out", false, none⟩]⟩ := by
  refine ⟨by decide, by decide, by decide, ?_⟩
  exact (c9_select_all 1 [] "out" ⟨0, [], [⟨0, "out", false, none⟩]⟩
    (by decide) (by decide)).2 (by decide)

theorem processInput_isErr (st : GBState) (e : String × ℚ) :
    isErr (processInput st e) = badInputEntry e := by
  unfold processInput badInputEntry
  by_cases h1 : badUInt53 e.2 = true
  · simp [isErr, h1]
  · simp only [Bool.not_eq_true] at h1
    by_cases h2 : isMultisigKey e.1.data = true
    · by_cases h3 : (splitOnChar ':' e.1.data).length = 2
      · simp [isErr, h1, h2, h3]
      · simp [isErr, h1, h2, h3]
    · simp only [Bool.not_eq_true] at h2
      simp [isErr, h1, h2]

theorem processInput_ok (st : GBState) (e : String × ℚ)
    (hb : badInputEntry e = false) :
    processInput st e = .ok ⟨jadd st.totalWeight (inputEntryWeight e),
      st.hasWitness || keyHasW e.1.data, st.inputCount + e.2, st.outputCount⟩ := by
  unfold badInputEntry at hb
  simp only [Bool.or_eq_false_iff, Bool.and_eq_false_iff] at hb
  unfold processInput inputEntryWeight
  rw [hb.1, if_neg Bool.false_ne_true]
  by_cases hm : isMultisigKey e.1.data = true
  · rcases hb.2 with hmf | hlen
    · rw [hm] at hmf; cases hmf
    · rw [if_pos hm, if_pos hm]
      rw [if_neg (of_decide_eq_false hlen)]
      dsimp only
      rw [jadd_assoc]
  · rw [if_neg hm, if_neg hm]

theorem processOutput_isErr (st : GBState) (e : String × ℚ) :
    isErr (processOutput st e) = badOutputEntry e := by
  unfold processOutput badOutputEntry
  by_cases h1 : badUInt53 e.2 = true
  · simp [isErr, h1]
  · simp only [Bool.not_eq_true] at h1
    simp [isErr, h1]

theorem processOutput_ok (st : GBState) (e : String × ℚ)
    (hb : badOutputEntry e = false) :
    processOutput st e = .ok ⟨jadd st.totalWeight (outputEntryWeight e),
      st.hasWitness, st.inputCount, st.outputCount + e.2⟩ := by
  unfold badOutputEntry at hb
  unfold processOutput outputEntryWeight
  rw [hb, if_neg Bool.false_ne_true]

theorem runInputs_isErr (l : List (String × ℚ)) :
    ∀ st, isErr (runEntries processInput st l) = l.any badInputEntry := by
  induction l with
  | nil => intro st; rfl
  | cons e rest ih =>
    intro st
    rw [List.any_cons]
    simp only [runEntries]
    cases hp : processInput st e with
    | error m =>
      have hbe : badInputEntry e = true := by
        rw [← processInput_isErr st e, hp]; rfl
      simp [isErr, hbe]
    | ok st2 =>
      have hbe : badInputEntry e = false := by
        rw [← processInput_isErr st e, hp]; rfl
      simp [hbe, ih st2]

theorem runOutputs_isErr (l : List (String × ℚ)) :
    ∀ st, isErr (runEntries processOutput st l) = l.any badOutputEntry := by
  induction l with
  | nil => intro st; rfl
  | cons e rest ih =>
    intro st
    rw [List.any_cons]
    simp only [runEntries]
    cases hp : processOutput st e with
    | error m =>
      have hbe : badOutputEntry e = true := by
        rw [← processOutput_isErr st e, hp]; rfl
      simp [isErr, hbe]
    | ok st2 =>
      have hbe : badOutputEntry e = false := by
        rw [← processOutput_isErr st e, hp]; rfl
      simp [hbe, ih st2]

theorem runInputs_ok (l : List (String × ℚ)) :
    ∀ st, (∀ e ∈ l, badInputEntry e = false) →
      runEntries processInput st l = .ok
        ⟨l.foldl (fun a e => jadd a (inputEntryWeight e)) st.totalWeight,
         st.hasWitness || l.any (fun e => keyHasW e.1.data),
         st.inputCount + sumCounts l, st.outputCount⟩ := by
  induction l with
  | nil =>
    intro st _
    simp [runEntries, sumCounts]
  | cons e rest ih =>
    intro st hall
    have hbe : badInputEntry e = false := hall e (List.mem_cons_self e rest)
    simp only [runEntries]
    rw [processInput_ok st e hbe]
    dsimp only
    rw [ih _ (fun x hx => hall x (List.mem_cons_of_mem e hx))]
    simp only [List.foldl_cons, List.any_cons, sumCounts, List.map_cons, List.sum_cons,
      Bool.or_assoc, add_assoc]

theorem runOutputs_ok (l : List (String × ℚ)) :
    ∀ st, (∀ e ∈ l, badOutputEntry e = false) →
      runEntries processOutput st l = .ok
        ⟨l.foldl (fun a e => jadd a (outputEntryWeight e)) st.totalWeight,
         st.hasWitness, st.inputCount, st.outputCount + sumCounts l⟩ := by
  induction l with
  | nil =>
    intro st _
    simp [runEntries, sumCounts]
  | cons e rest ih =>
    intro st hall
    have hbe : badOutputEntry e = false := hall e (List.mem_cons_self e rest)
    simp only [runEntries]
    rw [processOutput_ok st e hbe]
    dsimp only
    rw [ih _ (fun x hx => hall x (List.mem_cons_of_mem e hx))]
    simp only [List.foldl_cons, sumCounts, List.map_cons, List.sum_cons, add_assoc]

theorem any_false_of_eq_false {α : Type} {l : List α} {p : α → Bool}
    (h : l.any p = false) : ∀ e ∈ l, p e = false := by
  intro e he
  by_contra hc
  have ht : p e = true := by revert hc; cases p e <;> simp
  have : l.any p = true := List.any_eq_true.mpr ⟨e, he, ht⟩
  rw [h] at this
  cases this

/-- On the non-throwing path, `getByteCount` equals its closed
formula. -/
theorem gbc_eq_formula (ins outs : List (String × ℚ))
    (h : gbcThrows ins outs = false) :
    getByteCount ins outs = .ok (gbcFormula ins outs) := by
  unfold gbcThrows at h
  simp only [Bool.or_eq_false_iff] at h
  obtain ⟨⟨⟨hin, hout⟩, hsin⟩, hsout⟩ := h
  unfold getByteCount
  rw [runInputs_ok ins initGBState (any_false_of_eq_false hin)]
  dsimp only
  rw [runOutputs_ok outs _ (any_false_of_eq_false hout)]
  dsimp only
  unfold gbcFormula anyInputW
  simp only [initGBState, zero_add, Bool.false_or]
  rw [if_neg (by rw [hsin]; exact Bool.false_ne_true),
    if_neg (by rw [hsout]; exact Bool.false_ne_true)]

theorem foldl_jadd_nan {α : Type} (f : α → JSNum) (l : List α) :
    l.foldl (fun a e => jadd a (f e)) .nan = .nan := by
  induction l with
  | nil => rfl
  | cons e rest ih =>
    simp only [List.foldl_cons, jadd_nan_left]
    exact ih

theorem foldl_jadd_absorb {α : Type} (f : α → JSNum) (l : List α)
    (h : ∃ e ∈ l, f e = .nan) :
    ∀ a, l.foldl (fun a e => jadd a (f e)) a = .nan := by
  induction l with
  | nil => rcases h with ⟨e, he, _⟩; cases he
  | cons e rest ih =>
    intro a
    rcases h with ⟨x, hx, hfx⟩
    rcases List.mem_cons.mp hx with hhead | htail
    · subst hhead
      simp only [List.foldl_cons, hfx, jadd_nan_right]
      exact foldl_jadd_nan f rest
    · simp only [List.foldl_cons]
      exact ih ⟨x, htail, hfx⟩ _

theorem gbcFormula_nan_of_w0 (ins outs : List (String × ℚ))
    (h : outs.foldl (fun a e => jadd a (outputEntryWeight e))
      (ins.foldl (fun a e => jadd a (inputEntryWeight e)) (.num 0)) = .nan) :
    gbcFormula ins outs = .nan := by
  unfold gbcFormula
  rw [h]
  cases anyInputW ins <;> simp [jadd_nan_left, jdiv4, jceil]

theorem inputEntryWeight_nan (e : String × ℚ)
    (hm : isMultisigKey e.1.data = false)
    (hl : inputWeightOf e.1.data = none) :
    inputEntryWeight e = .nan := by
  unfold inputEntryWeight
  rw [if_neg (by rw [hm]; exact Bool.false_ne_true)]
  unfold lookupJS
  rw [hl]
  exact jmul_nan_left _

theorem outputEntryWeight_nan (e : String × ℚ)
    (hl : outputWeightOf e.1.data = none) :
    outputEntryWeight e = .nan := by
  unfold outputEntryWeight lookupJS
  rw [hl]
  exact jmul_nan_left _

/-- C10.  For a script-type key it does not recognize, `getByteCount`
raises no error: an input key not starting with `MULTISIG` and absent
from the input weight table, or any output key absent from the output
weight table (including multisig-tagged output keys, which are never
parsed), makes the undefined lookup propagate through the weight, and
the function returns the non-numeric `NaN` result instead of failing. -/
theorem c10_unknown_key_nan :
    ∀ (ins outs : List (String × ℚ)), gbcThrows ins outs = false →
    (ins.any (fun e => !isMultisigKey e.1.data && (inputWeightOf e.1.data).isNone)
      || outs.any (fun e => (outputWeightOf e.1.data).isNone)) = true →
    getByteCount ins outs = .ok .nan := by
  intro ins outs hok hnan
  rw [gbc_eq_formula ins outs hok]
  have hform : gbcFormula ins outs = .nan := by
    rcases Bool.or_eq_true_iff.mp hnan with hside | hside
    · rcases List.any_eq_true.mp hside with ⟨e, he, hcond⟩
      simp only [Bool.and_eq_true, Bool.not_eq_true', Option.isNone_iff_eq_none] at hcond
      apply gbcFormula_nan_of_w0
      rw [foldl_jadd_absorb (fun e => inputEntryWeight e) ins
        ⟨e, he, inputEntryWeight_nan e hcond.1 hcond.2⟩]
      exact foldl_jadd_nan _ outs
    · rcases List.any_eq_true.mp hside with ⟨e, he, hcond⟩
      simp only [Option.isNone_iff_eq_none] at hcond
      apply gbcFormula_nan_of_w0
      exact foldl_jadd_absorb (fun e => outputEntryWeight e) outs
        ⟨e, he, outputEntryWeight_nan e hcond⟩ _
  rw [hform]

unseal Rat.add Rat.mul Rat.sub Rat.inv in
/-- Witness for C10: an unrecognized input key (`FOO`) with a valid
count yields `NaN` without raising. -/
theorem c10_unknown_key_nan_witness :
    gbcThrows [("FOO", 1)] [("P2PKH", 1)] = false
    ∧ (([("FOO", 1)] : List (String × ℚ)).any
        (fun e => !isMultisigKey e.1.data && (inputWeightOf e.1.data).isNone)
      || ([("P2PKH", 1)] : List (String × ℚ)).any
        (fun e => (outputWeightOf e.1.data).isNone)) = true
    ∧ getByteCount [("FOO", 1)] [("P2PKH", 1)] = .ok .nan := by
  refine ⟨by decide, by decide, ?_⟩
  exact c10_unknown_key_nan [("FOO", 1)] [("P2PKH", 1)] (by decide) (by decide)

/-- C6 (amended).  `getByteCount` raises a hard input error exactly when
some input or output count is rejected by the `checkUInt53` guard
(negative, fractional, or above `Number.MAX_SAFE_INTEGER`), when some
MULTISIG-prefixed input key has a malformed tag shape (colon-split not
of exactly two parts), **or when a summed input or output count falls
outside the safe range** — the varint length computation re-applies the
`checkUInt53` guard to the totals; for all other inputs it returns a
value without raising. -/
theorem c6_error_conditions :
    ∀ (ins outs : List (String × ℚ)),
      isErr (getByteCount ins outs) = gbcThrows ins outs := by
  intro ins outs
  unfold getByteCount gbcThrows
  cases h1v : ins.any badInputEntry with
  | true =>
    have herr : isErr (runEntries processInput initGBState ins) = true := by
      rw [runInputs_isErr]; exact h1v
    cases hr : runEntries processInput initGBState ins with
    | error m => simp [isErr]
    | ok st1 => rw [hr] at herr; simp [isErr] at herr
  | false =>
    rw [runInputs_ok ins initGBState (any_false_of_eq_false h1v)]
    dsimp only
    cases h2v : outs.any badOutputEntry with
    | true =>
      have herr : isErr (runEntries processOutput
          ⟨ins.foldl (fun a e => jadd a (inputEntryWeight e)) initGBState.totalWeight,
           initGBState.hasWitness || ins.any (fun e => keyHasW e.1.data),
           initGBState.inputCount + sumCounts ins, initGBState.outputCount⟩ outs) = true := by
        rw [runOutputs_isErr]; exact h2v
      cases hr : runEntries processOutput
          ⟨ins.foldl (fun a e => jadd a (inputEntryWeight e)) initGBState.totalWeight,
           initGBState.hasWitness || ins.any (fun e => keyHasW e.1.data),
           initGBState.inputCount + sumCounts ins, initGBState.outputCount⟩ outs with
      | error m => simp [isErr]
      | ok st2 => rw [hr] at herr; simp [isErr] at herr
    | false =>
      rw [runOutputs_ok outs _ (any_false_of_eq_false h2v)]
      dsimp only
      simp only [initGBState, zero_add, Bool.false_or]
      cases hsi : badUInt53 (sumCounts ins) with
      | true => simp [isErr, hsi]
      | false =>
        rw [if_neg Bool.false_ne_true]
        cases hso : badUInt53 (sumCounts outs) with
        | true => simp [isErr, hso]
        | false =>
          rw [if_neg Bool.false_ne_true]
          simp [isErr]

unseal Rat.add Rat.mul Rat.sub Rat.inv in
/-- Counterexample to C6 as stated: two known input keys, each with a
count of exactly `Number.MAX_SAFE_INTEGER` (so no count is negative,
fractional or above the bound, no tag is multisig-shaped, and no output
entry exists at all) — yet `getByteCount` raises, because the varint
guard is applied to the summed input count `2 × MAX_SAFE_INTEGER`. -/
theorem c6_error_conditions_counterexample :
    (([("P2PKH", maxSafeInteger), ("P2WPKH", maxSafeInteger)] :
        List (String × ℚ)).any badInputEntry = false)
    ∧ (([] : List (String × ℚ)).any badOutputEntry = false)
    ∧ isErr (getByteCount
        [("P2PKH", maxSafeInteger), ("P2WPKH", maxSafeInteger)] []) = true := by
  refine ⟨by decide, by decide, by decide⟩

/-- C7 (amended).  On the non-throwing path `getByteCount` equals its
closed weight formula `gbcFormula`, whose 2-weight-unit witness
marker/flag term is controlled by `anyInputW` — the scan of the INPUT
type keys only; output type keys never trigger the witness overhead
(the source's `hasWitness` is only ever set inside the inputs
iteration). -/
theorem c7_witness_marker :
    ∀ (ins outs : List (String × ℚ)), gbcThrows ins outs = false →
      getByteCount ins outs = .ok (gbcFormula ins outs) := by
  exact gbc_eq_formula

unseal Rat.add Rat.mul Rat.sub Rat.inv in
/-- Witness for C7 (amended): a concrete segwit-input call where the
formula (witness bit from inputs) reproduces `getByteCount`. -/
theorem c7_witness_marker_witness :
    gbcThrows [("P2WPKH", 1)] [("P2PKH", 1)] = false
    ∧ getByteCount [("P2WPKH", 1)] [("P2PKH", 1)] =
        .ok (gbcFormula [("P2WPKH", 1)] [("P2PKH", 1)])
    ∧ getByteCount [("P2WPKH", 1)] [("P2PKH", 1)] = .ok (.num 113) := by
  refine ⟨by decide, ?_, by decide⟩
  exact c7_witness_marker [("P2WPKH", 1)] [("P2PKH", 1)] (by decide)

unseal Rat.add Rat.mul Rat.sub Rat.inv in
/-- Counterexample to C7 as stated: with a witness-marker key among the
OUTPUT types only (`P2WPKH` output, `P2PKH` input), the claim's rule
(`gbcWitnessBothFormula`, witness overhead once if any input **or
output** key has the marker) demands `ceil((147·4+31·4+2+40)/4) = 189`
virtual bytes, but the source adds no witness overhead and returns
`188`. -/
theorem c7_witness_marker_counterexample :
    getByteCount [("P2PKH", 1)] [("P2WPKH", 1)] = .ok (.num 188)
    ∧ gbcWitnessBothFormula [("P2PKH", 1)] [("P2WPKH", 1)] = .num 189
    ∧ getByteCount [("P2PKH", 1)] [("P2WPKH", 1)] ≠
        .ok (gbcWitnessBothFormula [("P2PKH", 1)] [("P2WPKH", 1)]) := by
  refine ⟨by decide, by decide, by decide⟩

unseal Rat.add Rat.mul Rat.sub Rat.inv in
/-- C8.  `getByteCount({P2PKH:1},{P2PKH:1})` returns the pinned
regression constant `191 = (147·4 + 34·4 + 8·4 + 1·4 + 1·4)/4`, with
the intentionally adjusted `P2PKH` input weight of `147 × 4` weight
units. -/
theorem c8_p2pkh_pinned :
    getByteCount [("P2PKH", 1)] [("P2PKH", 1)] = .ok (.num 191)
    ∧ (191 : ℚ) = (147 * 4 + 34 * 4 + 8 * 4 + 1 * 4 + 1 * 4) / 4
    ∧ inputWeightOf "P2PKH".data = some (147 * 4) := by
  refine ⟨by decide, by norm_num, by decide⟩

theorem effSum_nil (fpb : ℤ) : effSum fpb [] = 0 := rfl

theorem effSum_snoc (fpb : ℤ) (l : List Coin) (c : Coin) :
    effSum fpb l + effectiveValue fpb c = effSum fpb (l ++ [c]) := by
  simp [effSum]

/-- Every non-empty selection returned by the branch-and-bound search
extends the current selection by a sublist of the remaining coins, and
its summed effective value lies in the match window
`[targetForMatch, targetForMatch + matchRange]`. -/
theorem bnbGo_sel_spec (fpb tfm mr : ℤ) (sd : Option (ℕ → ℚ)) (df : ℕ → ℚ) :
    ∀ (remaining curSel : List Coin) (tries : ℤ) (si di : ℕ),
      (bnbGo fpb tfm mr sd df remaining curSel (effSum fpb curSel) tries si di).sel = [] ∨
      ∃ ext, ext.Sublist remaining ∧
        (bnbGo fpb tfm mr sd df remaining curSel (effSum fpb curSel) tries si di).sel
          = curSel ++ ext ∧
        tfm ≤ effSum fpb (curSel ++ ext) ∧
        effSum fpb (curSel ++ ext) ≤ tfm + mr := by
  intro remaining
  induction remaining with
  | nil =>
    intro curSel tries si di
    simp only [bnbGo]
    split_ifs with h1 h2 h3
    · exact Or.inl rfl
    · refine Or.inr ⟨[], List.nil_sublist _, ?_, ?_, ?_⟩
      · simp
      · rw [List.append_nil]; exact h2
      · rw [List.append_nil]; omega
    · exact Or.inl rfl
    · exact Or.inl rfl
  | cons c rest ih =>
    intro curSel tries si di
    simp only [bnbGo]
    split_ifs with h1 h2 h3 hch hsel hsel2
    · exact Or.inl rfl
    · refine Or.inr ⟨[], List.nil_sublist _, by simp, ?_, ?_⟩
      · rw [List.append_nil]; exact h2
      · rw [List.append_nil]; omega
    · exact Or.inl rfl
    · exact (ih curSel _ _ _).imp id (fun ⟨ext, hsub, hres, hb1, hb2⟩ =>
        ⟨ext, hsub.cons c, hres, hb1, hb2⟩)
    · rw [effSum_snoc fpb curSel c]
      exact (ih (curSel ++ [c]) _ _ _).imp id (fun ⟨ext, hsub, hres, hb1, hb2⟩ =>
        ⟨c :: ext, hsub.cons₂ c,
         by rw [hres, List.append_assoc, List.singleton_append],
         by rw [← List.singleton_append, ← List.append_assoc]; exact hb1,
         by rw [← List.singleton_append, ← List.append_assoc]; exact hb2⟩)
    · rw [effSum_snoc fpb curSel c]
      exact (ih (curSel ++ [c]) _ _ _).imp id (fun ⟨ext, hsub, hres, hb1, hb2⟩ =>
        ⟨c :: ext, hsub.cons₂ c,
         by rw [hres, List.append_assoc, List.singleton_append],
         by rw [← List.singleton_append, ← List.append_assoc]; exact hb1,
         by rw [← List.singleton_append, ← List.append_assoc]; exact hb2⟩)
    · exact (ih curSel _ _ _).imp id (fun ⟨ext, hsub, hres, hb1, hb2⟩ =>
        ⟨ext, hsub.cons c, hres, hb1, hb2⟩)

/-- C3 (amended).  `branchAndBound` returns either (a) a Selection whose
inputs extend the empty selection by a sublist of the
effective-value-positive coins sorted with the same boolean `a.lte(b)`
comparator as `descentDraw` (largest-first — not ascending as the claim
states), with summed effective value inside
`[targetForMatch, targetForMatch + matchRange]`, fee
`sum(values) − target` and the original targets as outputs with no
change output, or (b), when the search found nothing within the try
budget, exactly `singleRandomDraw` with the same seed over those
filtered sorted coins. -/
theorem c3_branch_and_bound :
    ∀ (targets : List Coin) (fpb : ℤ) (coins : List Coin) (addr : String)
      (sd : Option (ℕ → ℚ)) (df : ℕ → ℚ) (tb : ℤ),
      txBytesInt [] targets = .ok (some tb) →
      ((bnbGo fpb (coinSum targets + tb * fpb) (dustThreshold fpb) sd df
          ((sortLte coins).filter (fun c => 0 < effectiveValue fpb c))
          [] 0 1000000 0 0).sel = [] →
        bnb targets fpb coins addr sd df = singleRandomDraw targets fpb
          ((sortLte coins).filter (fun c => 0 < effectiveValue fpb c)) addr sd df)
      ∧ ((bnbGo fpb (coinSum targets + tb * fpb) (dustThreshold fpb) sd df
          ((sortLte coins).filter (fun c => 0 < effectiveValue fpb c))
          [] 0 1000000 0 0).sel ≠ [] →
        bnb targets fpb coins addr sd df = .ok
          ⟨coinSum (bnbGo fpb (coinSum targets + tb * fpb) (dustThreshold fpb) sd df
              ((sortLte coins).filter (fun c => 0 < effectiveValue fpb c))
              [] 0 1000000 0 0).sel - coinSum targets,
           (bnbGo fpb (coinSum targets + tb * fpb) (dustThreshold fpb) sd df
              ((sortLte coins).filter (fun c => 0 < effectiveValue fpb c))
              [] 0 1000000 0 0).sel, targets⟩
        ∧ (bnbGo fpb (coinSum targets + tb * fpb) (dustThreshold fpb) sd df
            ((sortLte coins).filter (fun c => 0 < effectiveValue fpb c))
            [] 0 1000000 0 0).sel.Sublist
            ((sortLte coins).filter (fun c => 0 < effectiveValue fpb c))
        ∧ coinSum targets + tb * fpb ≤ effSum fpb
            (bnbGo fpb (coinSum targets + tb * fpb) (dustThreshold fpb) sd df
              ((sortLte coins).filter (fun c => 0 < effectiveValue fpb c))
              [] 0 1000000 0 0).sel
        ∧ effSum fpb (bnbGo fpb (coinSum targets + tb * fpb) (dustThreshold fpb) sd df
              ((sortLte coins).filter (fun c => 0 < effectiveValue fpb c))
              [] 0 1000000 0 0).sel
            ≤ coinSum targets + tb * fpb + dustThreshold fpb) := by
  intro targets fpb coins addr sd df tb htb
  constructor
  · intro hempty
    unfold bnb
    rw [htb]
    dsimp only
    rw [if_pos hempty]
  · intro hne
    have hspec := bnbGo_sel_spec fpb (coinSum targets + tb * fpb) (dustThreshold fpb)
      sd df ((sortLte coins).filter (fun c => 0 < effectiveValue fpb c)) [] 1000000 0 0
    rw [effSum_nil] at hspec
    rcases hspec with hempty | ⟨ext, hsub, hres, hb1, hb2⟩
    · exact absurd hempty hne
    · rw [List.nil_append] at hres hb1 hb2
      refine ⟨?_, ?_, ?_, ?_⟩
      · unfold bnb
        rw [htb]
        dsimp only
        rw [if_neg hne]
      · rw [hres]; exact hsub
      · rw [hres]; exact hb1
      · rw [hres]; exact hb2

/-- Threaded through nonzero seeded draws, the branch-and-bound search
never consults the default stream: its selection, try counter and seed
position are independent of it. -/
theorem bnbGo_seeded_df (fpb tfm mr : ℤ) (s : ℕ → ℚ) (hs : ∀ i, s i ≠ 0)
    (df1 df2 : ℕ → ℚ) :
    ∀ (remaining curSel : List Coin) (effValue tries : ℤ) (si di1 di2 : ℕ),
      (bnbGo fpb tfm mr (some s) df1 remaining curSel effValue tries si di1).sel =
        (bnbGo fpb tfm mr (some s) df2 remaining curSel effValue tries si di2).sel
      ∧ (bnbGo fpb tfm mr (some s) df1 remaining curSel effValue tries si di1).tries =
        (bnbGo fpb tfm mr (some s) df2 remaining curSel effValue tries si di2).tries
      ∧ (bnbGo fpb tfm mr (some s) df1 remaining curSel effValue tries si di1).si =
        (bnbGo fpb tfm mr (some s) df2 remaining curSel effValue tries si di2).si := by
  intro remaining
  induction remaining with
  | nil =>
    intro curSel effValue tries si di1 di2
    simp only [bnbGo]
    split_ifs <;> exact ⟨rfl, rfl, rfl⟩
  | cons c rest ih =>
    intro curSel effValue tries si di1 di2
    simp only [bnbGo]
    by_cases h1 : tfm + mr < effValue
    · rw [if_pos h1, if_pos h1]
      exact ⟨rfl, rfl, rfl⟩
    · rw [if_neg h1, if_neg h1]
      by_cases h2 : tfm ≤ effValue
      · rw [if_pos h2, if_pos h2]
        exact ⟨rfl, rfl, rfl⟩
      · rw [if_neg h2, if_neg h2]
        by_cases h3 : tries - 1 < 1
        · rw [if_pos h3, if_pos h3]
          exact ⟨rfl, rfl, rfl⟩
        · rw [if_neg h3, if_neg h3]
          have hch1 : branchChoice (some s) df1 si di1 = (true, si + 1, di1) := by
            unfold branchChoice
            dsimp only
            rw [if_pos (hs si)]
          have hch2 : branchChoice (some s) df2 si di2 = (true, si + 1, di2) := by
            unfold branchChoice
            dsimp only
            rw [if_pos (hs si)]
          rw [hch1, hch2]
          dsimp only
          obtain ⟨hsel, htries, hsi⟩ := ih (curSel ++ [c])
            (effValue + effectiveValue fpb c) (tries - 1) (si + 1) di1 di2
          by_cases hc2 : (bnbGo fpb tfm mr (some s) df2 rest (curSel ++ [c])
              (effValue + effectiveValue fpb c) (tries - 1) (si + 1) di2).sel = []
          · have hc1 : (bnbGo fpb tfm mr (some s) df1 rest (curSel ++ [c])
                (effValue + effectiveValue fpb c) (tries - 1) (si + 1) di1).sel = [] := by
              rw [hsel]; exact hc2
            rw [if_pos hc1, if_pos hc2, htries, hsi]
            exact ih curSel effValue _ _ _ _
          · have hc1 : ¬(bnbGo fpb tfm mr (some s) df1 rest (curSel ++ [c])
                (effValue + effectiveValue fpb c) (tries - 1) (si + 1) di1).sel = [] := by
              rw [hsel]; exact hc2
            rw [if_neg hc1, if_neg hc2]
            exact ⟨hsel, htries, hsi⟩

/-- C5 (amended).  With a string seed, `singleRandomDraw` is fully
deterministic: it never consults the non-deterministic default stream.
Seeded `branchAndBound` is deterministic provided the seeded generator
never returns exactly `0`: the branch-order condition
`(rng && rng()) || Math.random() > 0.5` treats a seeded draw of `0` as
falsy and then falls through to the default `Math.random` source, so
determinism of `bnb` holds under the hypothesis that every seeded draw
is nonzero. -/
theorem c5_seeded_determinism :
    (∀ (targets : List Coin) (fpb : ℤ) (coins : List Coin) (addr : String)
      (sd : ℕ → ℚ) (df1 df2 : ℕ → ℚ),
      singleRandomDraw targets fpb coins addr (some sd) df1 =
        singleRandomDraw targets fpb coins addr (some sd) df2)
    ∧ (∀ (targets : List Coin) (fpb : ℤ) (coins : List Coin) (addr : String)
      (s : ℕ → ℚ) (df1 df2 : ℕ → ℚ), (∀ i, s i ≠ 0) →
      bnb targets fpb coins addr (some s) df1 =
        bnb targets fpb coins addr (some s) df2) := by
  constructor
  · intro targets fpb coins addr sd df1 df2
    rfl
  · intro targets fpb coins addr s df1 df2 hs
    unfold bnb
    cases htb : txBytesInt [] targets with
    | error m => rfl
    | ok otb =>
      cases otb with
      | none => rfl
      | some tb =>
        dsimp only
        obtain ⟨hsel, _, _⟩ := bnbGo_seeded_df fpb (coinSum targets + tb * fpb)
          (dustThreshold fpb) s hs df1 df2
          ((sortLte coins).filter (fun c => 0 < effectiveValue fpb c)) [] 0 1000000 0 0 0
        rw [hsel]
        by_cases hempty : (bnbGo fpb (coinSum targets + tb * fpb) (dustThreshold fpb)
            (some s) df2 ((sortLte coins).filter (fun c => 0 < effectiveValue fpb c))
            [] 0 1000000 0 0).sel = []
        · rw [if_pos hempty, if_pos hempty]
          rfl
        · rw [if_neg hempty, if_neg hempty]

unseal Rat.add Rat.mul Rat.sub Rat.inv in
/-- Witness for C3 (amended): for target 300 over coins {100, 200} at
fee rate 0 with an always-include-first seeded stream, the search finds
the exact match and the amended characterization holds. -/
theorem c3_branch_and_bound_witness :
    txBytesInt [] exTargets = .ok (some 44)
    ∧ (bnbGo 0 (coinSum exTargets + 44 * 0) (dustThreshold 0) (some halfStream) zeroStream
        ((sortLte exCoins2).filter (fun c => 0 < effectiveValue 0 c)) [] 0 1000000 0 0).sel ≠ []
    ∧ (bnb exTargets 0 exCoins2 "ch" (some halfStream) zeroStream = .ok
        ⟨coinSum (bnbGo 0 (coinSum exTargets + 44 * 0) (dustThreshold 0) (some halfStream)
            zeroStream ((sortLte exCoins2).filter (fun c => 0 < effectiveValue 0 c))
            [] 0 1000000 0 0).sel - coinSum exTargets,
         (bnbGo 0 (coinSum exTargets + 44 * 0) (dustThreshold 0) (some halfStream)
            zeroStream ((sortLte exCoins2).filter (fun c => 0 < effectiveValue 0 c))
            [] 0 1000000 0 0).sel, exTargets⟩
      ∧ (bnbGo 0 (coinSum exTargets + 44 * 0) (dustThreshold 0) (some halfStream)
            zeroStream ((sortLte exCoins2).filter (fun c => 0 < effectiveValue 0 c))
            [] 0 1000000 0 0).sel.Sublist
          ((sortLte exCoins2).filter (fun c => 0 < effectiveValue 0 c))
      ∧ coinSum exTargets + 44 * 0 ≤ effSum 0
          (bnbGo 0 (coinSum exTargets + 44 * 0) (dustThreshold 0) (some halfStream)
            zeroStream ((sortLte exCoins2).filter (fun c => 0 < effectiveValue 0 c))
            [] 0 1000000 0 0).sel
      ∧ effSum 0 (bnbGo 0 (coinSum exTargets + 44 * 0) (dustThreshold 0) (some halfStream)
            zeroStream ((sortLte exCoins2).filter (fun c => 0 < effectiveValue 0 c))
            [] 0 1000000 0 0).sel
          ≤ coinSum exTargets + 44 * 0 + dustThreshold 0) := by
  refine ⟨by decide, by decide, ?_⟩
  exact (c3_branch_and_bound exTargets 0 exCoins2 "ch" (some halfStream) zeroStream 44
    (by decide)).2 (by decide)

unseal Rat.add Rat.mul Rat.sub Rat.inv in
/-- Counterexample to C3 as stated: the claim's "ascending-sorted
coins" (the smallest-first order, produced by the `b.lte(a)` comparator
of `ascentDraw`) does not describe `bnb` — the exact match found over
coins {100, 200} for target 300 is `[200, 100]`, which is not a sublist
of the ascending order `[100, 200]`, and the result is not the claimed
`singleRandomDraw` fallback over the ascending list either (an exact
match exists). -/
theorem c3_branch_and_bound_counterexample :
    bnb exTargets 0 exCoins2 "ch" (some halfStream) zeroStream =
      .ok ⟨0, [⟨200, "b", false, none⟩, ⟨100, "a", false, none⟩], exTargets⟩
    ∧ ¬ ([⟨200, "b", false, none⟩, ⟨100, "a", false, none⟩] : List Coin).Sublist
        ((sortGte exCoins2).filter (fun c => 0 < effectiveValue 0 c))
    ∧ bnb exTargets 0 exCoins2 "ch" (some halfStream) zeroStream ≠
        singleRandomDraw exTargets 0
          ((sortGte exCoins2).filter (fun c => 0 < effectiveValue 0 c)) "ch"
          (some halfStream) zeroStream := by
  refine ⟨by decide, by decide, by decide⟩

unseal Rat.add Rat.mul Rat.sub Rat.inv in
/-- Witness for C5 (amended): with the constant-`1/2` seeded stream
(never zero), two `bnb` runs with different default streams coincide. -/
theorem c5_seeded_determinism_witness :
    (∀ i, halfStream i ≠ 0)
    ∧ bnb exTargets 0 exCoins3 "ch" (some halfStream) oneStream =
        bnb exTargets 0 exCoins3 "ch" (some halfStream) zeroStream := by
  have hnz : ∀ i, halfStream i ≠ 0 := by
    intro i
    unfold halfStream
    norm_num
  exact ⟨hnz, c5_seeded_determinism.2 exTargets 0 exCoins3 "ch" halfStream
    oneStream zeroStream hnz⟩

unseal Rat.add Rat.mul Rat.sub Rat.inv in
/-- Counterexample to C5 as stated: with the same seed stream — whose
first draw is exactly `0`, a falsy value — two runs differing only in
the non-deterministic default stream return different Selections
(`{300}` versus `{200, 100}`): the branch-order expression
`(rng && rng()) || Math.random() > 0.5` consults `Math.random` when the
seeded draw is `0`. -/
theorem c5_seeded_determinism_counterexample :
    bnb exTargets 0 exCoins3 "ch" (some zeroFirstStream) oneStream =
      .ok ⟨0, [⟨300, "c", false, none⟩], exTargets⟩
    ∧ bnb exTargets 0 exCoins3 "ch" (some zeroFirstStream) zeroStream =
      .ok ⟨0, [⟨200, "b", false, none⟩, ⟨100, "a", false, none⟩], exTargets⟩
    ∧ (⟨0, [⟨300, "c", false, none⟩], exTargets⟩ : Selection) ≠
        ⟨0, [⟨200, "b", false, none⟩, ⟨100, "a", false, none⟩], exTargets⟩ := by
  refine ⟨by decide, by decide, by decide⟩

end CoinSel
